import Mathlib

/-!
Shallow embedding of the article collection and selection pipeline of
`src/worker/index.js` (news-summarizer Cloudflare worker), together with
theorems settling the specification claims about it.

JavaScript strings are modelled as Lean `String`, JS numbers appearing as
similarity scores as `ℚ`, counts as `ℕ`, timestamps as `ℤ` via an abstract
date-parsing function.  JS objects used as string-keyed dictionaries are
modelled as association lists with first-match lookup (`objGet`) and
in-place first-match update (`objSet`), which agrees with JS objects since
those never hold a duplicate key.  JS truthiness of optional strings
(`undefined` and `""` are falsy) is modelled by `jsTruthy`.
-/

/-- JS truthiness for an optional string: `undefined` and `""` are falsy. -/
def jsTruthy : Option String → Bool
  | none => false
  | some s => s ≠ ""

/-- JS `a || b` on optional strings. -/
def jsOrStr (a b : Option String) : Option String :=
  if jsTruthy a then a else b

/-- Article metadata, as attached in `parseRSSFeed` (`metadata: {...}`).
`perspective` and `feedType` are optional because callers (e.g. the unit
tests) build metadata objects with only some of the keys. -/
structure Metadata where
  language : String
  region : String
  feedType : Option String
  perspective : Option String
deriving DecidableEq

/-- An article record as produced by `parseRSSFeed`.  `metadata` is optional
because `balanceArticleSelection` reads it with `article.metadata?.` -/
structure Article where
  title : String
  url : String
  publishedAt : String
  description : String
  sourceName : String
  metadata : Option Metadata
deriving DecidableEq

/-- Splits a character list at whitespace characters, one split per
whitespace character, as JS `split(/\s+/)` does up to empty pieces (which
the caller filters away by the length bound). -/
def splitWsAux : List Char → List Char → List (List Char)
  | [], acc => [acc.reverse]
  | c :: cs, acc =>
    if c.isWhitespace then acc.reverse :: splitWsAux cs []
    else splitWsAux cs (c :: acc)

/-- Lower-cases a string character-wise, modelling JS `toLowerCase()`. -/
def lowerString (s : String) : String :=
  String.mk (s.data.map Char.toLower)

/-- The token list of `jaccardSimilarity`: lower-case, split on whitespace,
discard tokens of length ≤ 2 (`.filter((word) => word.length > 2)`). -/
def jaccardTokens (s : String) : List String :=
  ((splitWsAux (lowerString s).data []).map String.mk).filter
    (fun w => 2 < w.length)

/-- The word set built from a string in `jaccardSimilarity`
(`new Set(...)`). -/
def tokenSet (s : String) : Finset String :=
  (jaccardTokens s).toFinset

/-- `jaccardSimilarity(str1, str2)` from `src/worker/index.js` lines 70-96:
the falsy guard `if (!str1 || !str2) return 0`, the two empty-set edge
cases, then `|intersection| / |union|`. -/
def jaccardSimilarity (str1 str2 : String) : ℚ :=
  if str1 = "" ∨ str2 = "" then 0
  else
    let set1 := tokenSet str1
    let set2 := tokenSet str2
    if set1.card = 0 ∧ set2.card = 0 then 1
    else if set1.card = 0 ∨ set2.card = 0 then 0
    else ((set1 ∩ set2).card : ℚ) / ((set1 ∪ set2).card : ℚ)

/-- The scan loop of `deduplicateArticles`: `uniqueArticles` is the kept
list; a candidate is a duplicate exactly when some already-kept article
satisfies `jaccardSimilarity(article.title, uniqueArticle.title) >=
threshold`. -/
def dedupGo (threshold : ℚ) (kept : List Article) : List Article → List Article
  | [] => kept
  | a :: rest =>
    if kept.any (fun u => threshold ≤ jaccardSimilarity a.title u.title) then
      dedupGo threshold kept rest
    else
      dedupGo threshold (kept ++ [a]) rest

/-- `deduplicateArticles(articles, threshold)` from `src/worker/index.js`
lines 101-158 (the region counting and logging have no effect on the
returned list and are omitted). -/
def deduplicateArticles (articles : List Article) (threshold : ℚ) : List Article :=
  if articles.isEmpty then [] else dedupGo threshold [] articles

example : jaccardSimilarity "" "" = 0 := by rfl
example : jaccardSimilarity "hello world" "" = 0 := by rfl

/-- A declared perspective of a topic (`topic.perspectives` entries). -/
structure Perspective where
  id : String
  name : String
deriving DecidableEq

/-- A feed configuration (`topic.rssFeeds` entries). -/
structure Feed where
  type : String
  language : String
  region : String
  query : Option String
  perspective : Option String
deriving DecidableEq

/-- A topic, with the fields the modelled pipeline reads. -/
structure Topic where
  query : Option String
  perspectives : Option (List Perspective)
  rssFeeds : List Feed
deriving DecidableEq

/-- Lookup in a JS object modelled as an association list: first match,
with `[]` standing both for a missing key and for an empty bucket (the
modelled code only ever stores list values and reads keys it stored). -/
def objGet (m : List (String × List Article)) (k : String) : List Article :=
  match m with
  | [] => []
  | (k', v) :: rest => if k' = k then v else objGet rest k

/-- Update in a JS object modelled as an association list: replace the
first matching key in place, else append the new key. -/
def objSet (m : List (String × List Article)) (k : String) (v : List Article) :
    List (String × List Article) :=
  match m with
  | [] => [(k, v)]
  | (k', v') :: rest => if k' = k then (k, v) :: rest else (k', v') :: objSet rest k v

/-- Total number of articles stored in an association-list object. -/
def exSize (m : List (String × List Article)) : Nat :=
  (m.map (fun kv => kv.2.length)).sum

theorem objSet_exSize (m : List (String × List Article)) (k : String) (v : List Article) :
    exSize (objSet m k v) + (objGet m k).length = exSize m + v.length := by
  induction m with
  | nil => simp [objSet, objGet, exSize]
  | cons kv rest ih =>
    obtain ⟨k', v'⟩ := kv
    by_cases h : k' = k <;> simp [objSet, objGet, h, exSize] at ih ⊢ <;> omega

/-- The perspective id of an article as read by `balanceArticleSelection`:
`article.metadata?.perspective || article.metadata?.feedType`. -/
def articlePid (a : Article) : Option String :=
  match a.metadata with
  | none => none
  | some m => jsOrStr m.perspective m.feedType

/-- One article of the bucket-partition loop of `balanceArticleSelection`:
`perspectives.find(p => p.id === pId)` decides between a perspective bucket
and the `otherArticles` list. -/
def bucketStep (persps : List Perspective)
    (st : List (String × List Article) × List Article) (a : Article) :
    List (String × List Article) × List Article :=
  match persps.find? (fun p => articlePid a == some p.id) with
  | some p => (objSet st.1 p.id (objGet st.1 p.id ++ [a]), st.2)
  | none => (st.1, st.2 ++ [a])

/-- The bucket partition of `balanceArticleSelection` (lines 176-191):
one bucket per declared perspective id, initialised empty, plus the
`otherArticles` list for unclassified records. -/
def fillBuckets (persps : List Perspective) (articles : List Article) :
    List (String × List Article) × List Article :=
  articles.foldl (bucketStep persps) (persps.foldl (fun b p => objSet b p.id []) [], [])

/-- One pass of the round-robin fill (the inner `for` loop of step 2 of
`balanceArticleSelection`): for each perspective in order, stop if the
selection is full, otherwise move the head of that perspective's remaining
extras to the end of the selection, recording in the flag whether any move
happened. -/
def rrPass (maxA : Nat) : List Perspective → List (String × List Article) →
    List Article → Bool → List (String × List Article) × List Article × Bool
  | [], ex, bal, added => (ex, bal, added)
  | p :: ps, ex, bal, added =>
    if maxA ≤ bal.length then (ex, bal, added)
    else
      match objGet ex p.id with
      | [] => rrPass maxA ps ex bal added
      | x :: xs => rrPass maxA ps (objSet ex p.id xs) (bal ++ [x]) true

theorem rrPass_exSize_le (maxA : Nat) (ps : List Perspective)
    (ex : List (String × List Article)) (bal : List Article) (added : Bool) :
    exSize (rrPass maxA ps ex bal added).1 ≤ exSize ex := by
  induction ps generalizing ex bal added with
  | nil => simp [rrPass]
  | cons p ps ih =>
    simp only [rrPass]
    split
    · exact le_refl _
    · split
      · exact ih ex bal added
      · next x xs hx =>
        refine le_trans (ih _ _ _) ?_
        have := objSet_exSize ex p.id xs
        rw [hx] at this
        simp at this
        omega

theorem rrPass_added_exSize_lt (maxA : Nat) (ps : List Perspective)
    (ex : List (String × List Article)) (bal : List Article)
    (h : (rrPass maxA ps ex bal false).2.2 = true) :
    exSize (rrPass maxA ps ex bal false).1 < exSize ex := by
  induction ps generalizing ex bal with
  | nil => simp [rrPass] at h
  | cons p ps ih =>
    simp only [rrPass] at h ⊢
    by_cases hlen : maxA ≤ bal.length
    · rw [if_pos hlen] at h
      simp at h
    · rw [if_neg hlen] at h ⊢
      cases hx : objGet ex p.id with
      | nil =>
        simp only [hx] at h ⊢
        exact ih ex bal h
      | cons x xs =>
        simp only [hx] at h ⊢
        refine lt_of_le_of_lt (rrPass_exSize_le _ _ _ _ _) ?_
        have hsz := objSet_exSize ex p.id xs
        rw [hx] at hsz
        simp at hsz
        omega

/-- The `while (balanced.length < maxArticles && added)` loop of step 2 of
`balanceArticleSelection`, running `rrPass` until the selection is full or
a pass adds nothing. -/
def rrLoop (maxA : Nat) (persps : List Perspective)
    (ex : List (String × List Article)) (bal : List Article) : List Article :=
  if bal.length < maxA then
    match h : rrPass maxA persps ex bal false with
    | (ex', bal', true) =>
      have : exSize ex' < exSize ex := by
        have h2 := rrPass_added_exSize_lt maxA persps ex bal (by rw [h])
        rw [h] at h2
        exact h2
      rrLoop maxA persps ex' bal'
    | (_, bal', false) => bal'
  else bal
termination_by exSize ex

/-- Step 3 of `balanceArticleSelection`: append unclassified articles in
order until the selection reaches `maxArticles` or they run out. -/
def fillOthers (maxA : Nat) (bal : List Article) : List Article → List Article
  | [] => bal
  | a :: rest =>
    if maxA ≤ (bal ++ [a]).length then bal ++ [a]
    else fillOthers maxA (bal ++ [a]) rest

/-- `balanceArticleSelection(articles, maxArticles, minArticlesPerPerspective,
topic)` from `src/worker/index.js` lines 163-265.  The
`minArticlesPerPerspective` argument is only read by the warning logging
(modelled separately as `balanceWarnings`); the returned selection is
computed exactly as in the source: simple slice when no topic/perspectives,
otherwise bucket partition, per-perspective target take, round-robin fill
from the extras, then the `otherArticles` fill. -/
def balanceArticleSelection (articles : List Article) (maxArticles : Nat)
    (minArticlesPerPerspective : Nat) (topic : Option Topic) : List Article :=
  if articles.isEmpty then []
  else
    match topic with
    | none => articles.take maxArticles
    | some t =>
      match t.perspectives with
      | none => articles.take maxArticles
      | some persps =>
        let bo := fillBuckets persps articles
        let buckets := bo.1
        let others := bo.2
        let target := maxArticles / persps.length
        let balanced := persps.foldl (fun acc p => acc ++ (objGet buckets p.id).take target) []
        let balanced2 :=
          if balanced.length < maxArticles then
            rrLoop maxArticles persps
              (persps.foldl (fun e p => objSet e p.id ((objGet buckets p.id).drop target)) [])
              balanced
          else balanced
        if balanced2.length < maxArticles ∧ others ≠ [] then
          fillOthers maxArticles balanced2 others
        else balanced2

/-- The warning reports of `balanceArticleSelection` lines 201-211: when a
positive minimum is configured, each declared perspective whose bucket is
smaller than the minimum is reported with its name and bucket size.  The
selection itself never reads these. -/
def balanceWarnings (articles : List Article) (minArticlesPerPerspective : Nat)
    (topic : Option Topic) : List (String × Nat) :=
  if articles.isEmpty then []
  else
    match topic with
    | none => []
    | some t =>
      match t.perspectives with
      | none => []
      | some persps =>
        let buckets := (fillBuckets persps articles).1
        if 0 < minArticlesPerPerspective then
          (persps.filter
              (fun p => (objGet buckets p.id).length < minArticlesPerPerspective)).map
            (fun p => (p.name, (objGet buckets p.id).length))
        else []

theorem jaccardSimilarity_comm (s1 s2 : String) :
    jaccardSimilarity s1 s2 = jaccardSimilarity s2 s1 := by
  simp only [jaccardSimilarity]
  refine if_congr or_comm rfl (if_congr and_comm rfl (if_congr or_comm rfl ?_))
  rw [Finset.inter_comm, Finset.union_comm]

/-- C2 counterexample: `jaccardSimilarity("", "")` is `0`, not `1`: both
token sets are empty, but the falsy guard `if (!str1 || !str2) return 0`
fires before the empty-set edge case is reached. -/
theorem jaccard_both_empty_counterexample :
    tokenSet "" = ∅ ∧ jaccardSimilarity "" "" = 0 ∧ jaccardSimilarity "" "" ≠ 1 := by
  refine ⟨rfl, rfl, ?_⟩
  intro h
  rw [show jaccardSimilarity "" "" = 0 from rfl] at h
  exact absurd h (by norm_num)

/-- C2 amended: for nonempty strings, two empty token sets give similarity 1
and exactly one empty token set gives 0; but an empty string input is caught
by the falsy guard first, so `jaccardSimilarity("", "")` is `0` (and
`jaccardSimilarity("hello world", "")` is `0`). -/
theorem jaccardSimilarity_empty_sets (s1 s2 : String) :
    (s1 ≠ "" → s2 ≠ "" → tokenSet s1 = ∅ → tokenSet s2 = ∅ →
      jaccardSimilarity s1 s2 = 1)
    ∧ (tokenSet s1 = ∅ → tokenSet s2 ≠ ∅ → jaccardSimilarity s1 s2 = 0)
    ∧ (tokenSet s1 ≠ ∅ → tokenSet s2 = ∅ → jaccardSimilarity s1 s2 = 0)
    ∧ jaccardSimilarity "" "" = 0
    ∧ jaccardSimilarity "hello world" "" = 0 := by
  refine ⟨?_, ?_, ?_, rfl, rfl⟩
  · intro h1 h2 e1 e2
    simp [jaccardSimilarity, h1, h2, e1, e2]
  · intro e1 e2
    by_cases h1 : s1 = ""
    · simp [jaccardSimilarity, h1]
    · by_cases h2 : s2 = ""
      · simp [jaccardSimilarity, h2]
      · simp [jaccardSimilarity, h1, h2, e1, Finset.card_eq_zero, e2]
  · intro e1 e2
    by_cases h1 : s1 = ""
    · simp [jaccardSimilarity, h1]
    · by_cases h2 : s2 = ""
      · simp [jaccardSimilarity, h2]
      · simp [jaccardSimilarity, h1, h2, e2, Finset.card_eq_zero, e1]

theorem jaccardSimilarity_empty_sets_witness :
    jaccardSimilarity "ab" "c d" = 1 ∧ jaccardSimilarity "ab" "hello world" = 0 :=
  ⟨(jaccardSimilarity_empty_sets "ab" "c d").1 (by decide) (by decide) (by rfl) (by rfl),
   (jaccardSimilarity_empty_sets "ab" "hello world").2.1 (by rfl) (by decide)⟩

/-- The greedy reference deduplication in the words of the spec: scan in
input order, discard a candidate exactly when some already-kept article's
title has similarity ≥ threshold with the candidate's title, otherwise
append it to the kept list. -/
def dedupeSpecGo (threshold : ℚ) (kept : List Article) : List Article → List Article
  | [] => kept
  | c :: cs =>
    if kept.any (fun u => threshold ≤ jaccardSimilarity u.title c.title) then
      dedupeSpecGo threshold kept cs
    else
      dedupeSpecGo threshold (kept ++ [c]) cs

/-- The greedy reference algorithm of the spec, started from an empty kept
list. -/
def dedupeSpec (threshold : ℚ) (articles : List Article) : List Article :=
  dedupeSpecGo threshold [] articles

theorem dedupGo_eq_specGo (threshold : ℚ) (kept l : List Article) :
    dedupGo threshold kept l = dedupeSpecGo threshold kept l := by
  induction l generalizing kept with
  | nil => rfl
  | cons a rest ih =>
    simp only [dedupGo, dedupeSpecGo]
    have harg : (fun u : Article => decide (threshold ≤ jaccardSimilarity a.title u.title))
        = (fun u : Article => decide (threshold ≤ jaccardSimilarity u.title a.title)) := by
      funext u
      rw [jaccardSimilarity_comm]
    rw [harg]
    split <;> exact ih _

/-- C4: `deduplicateArticles` coincides with the spec's greedy reference
algorithm (first-seen wins, candidate compared against every already-kept
title) for every article sequence and threshold. -/
theorem deduplicateArticles_eq_spec (articles : List Article) (threshold : ℚ) :
    deduplicateArticles articles threshold = dedupeSpec threshold articles := by
  unfold deduplicateArticles dedupeSpec
  cases articles with
  | nil => rfl
  | cons a rest => exact dedupGo_eq_specGo threshold [] (a :: rest)

/-- The separation invariant of the kept list: every later entry has
similarity below the threshold with every earlier entry. -/
def KeptSeparated (threshold : ℚ) (l : List Article) : Prop :=
  List.Pairwise (fun u v => ¬ threshold ≤ jaccardSimilarity v.title u.title) l

theorem dedupGo_separated (threshold : ℚ) (l : List Article) :
    ∀ kept : List Article, KeptSeparated threshold kept →
      KeptSeparated threshold (dedupGo threshold kept l) := by
  induction l with
  | nil => intro kept h; exact h
  | cons a rest ih =>
    intro kept h
    simp only [dedupGo]
    split
    · exact ih kept h
    · next hdup =>
      refine ih (kept ++ [a]) ?_
      rw [KeptSeparated, List.pairwise_append]
      refine ⟨h, List.pairwise_singleton _ _, ?_⟩
      intro u hu v hv
      rw [List.mem_singleton] at hv
      subst hv
      rw [List.any_eq_true] at hdup
      push_neg at hdup
      have := hdup u hu
      simpa using this

theorem dedupGo_fixed (threshold : ℚ) (l : List Article) :
    ∀ kept : List Article, KeptSeparated threshold l →
      (∀ a ∈ l, ∀ u ∈ kept, ¬ threshold ≤ jaccardSimilarity a.title u.title) →
      dedupGo threshold kept l = kept ++ l := by
  induction l with
  | nil => intro kept _ _; simp [dedupGo]
  | cons a rest ih =>
    intro kept hsep hcross
    rw [KeptSeparated, List.pairwise_cons] at hsep
    simp only [dedupGo]
    rw [if_neg ?_]
    · rw [ih (kept ++ [a]) hsep.2 ?_]
      · simp
      · intro b hb u hu
        rw [List.mem_append, List.mem_singleton] at hu
        rcases hu with hu | rfl
        · exact hcross b (List.mem_cons_of_mem _ hb) u hu
        · exact hsep.1 b hb
    · rw [List.any_eq_true]
      push_neg
      intro u hu
      simpa using hcross a (List.mem_cons_self a rest) u hu

/-- C8: `deduplicateArticles` is idempotent: run on its own output with the
same threshold it returns that output unchanged. -/
theorem deduplicateArticles_idempotent (articles : List Article) (threshold : ℚ) :
    deduplicateArticles (deduplicateArticles articles threshold) threshold
      = deduplicateArticles articles threshold := by
  unfold deduplicateArticles
  cases articles with
  | nil => rfl
  | cons a rest =>
    simp only [List.isEmpty_cons, if_neg]
    have hsep := dedupGo_separated threshold (a :: rest) [] (List.Pairwise.nil)
    set o := dedupGo threshold [] (a :: rest) with ho
    cases hoe : o with
    | nil => simp [hoe]
    | cons b bs =>
      rw [hoe] at hsep
      have := dedupGo_fixed threshold (b :: bs) [] hsep (by simp)
      simp only [List.isEmpty_cons, Bool.false_eq_true, if_false, List.nil_append] at this ⊢
      exact this

/-- C9: the selection returned by `balanceArticleSelection` does not depend
on the `minArticlesPerPerspective` argument, which is only read by the
warning logging (`balanceWarnings`). -/
theorem balanceArticleSelection_min_independent (articles : List Article)
    (maxArticles m1 m2 : Nat) (topic : Option Topic) :
    balanceArticleSelection articles maxArticles m1 topic
      = balanceArticleSelection articles maxArticles m2 topic := rfl

theorem foldl_take_length_le (buckets : List (String × List Article)) (target : Nat)
    (persps : List Perspective) (init : List Article) :
    (persps.foldl (fun acc p => acc ++ (objGet buckets p.id).take target) init).length
      ≤ init.length + persps.length * target := by
  induction persps generalizing init with
  | nil => simp
  | cons p ps ih =>
    simp only [List.foldl_cons, List.length_cons]
    refine le_trans (ih (init ++ (objGet buckets p.id).take target)) ?_
    have := List.length_take_le target (objGet buckets p.id)
    simp only [List.length_append]
    calc init.length + ((objGet buckets p.id).take target).length + ps.length * target
        ≤ init.length + target + ps.length * target := by omega
      _ = init.length + (ps.length + 1) * target := by ring

theorem rrPass_length_le (maxA : Nat) (ps : List Perspective) :
    ∀ (ex : List (String × List Article)) (bal : List Article) (added : Bool),
      bal.length ≤ maxA → (rrPass maxA ps ex bal added).2.1.length ≤ maxA := by
  induction ps with
  | nil => intro ex bal added h; exact h
  | cons p ps ih =>
    intro ex bal added h
    simp only [rrPass]
    by_cases hlen : maxA ≤ bal.length
    · rw [if_pos hlen]; exact h
    · rw [if_neg hlen]
      cases hx : objGet ex p.id with
      | nil => exact ih ex bal added h
      | cons x xs =>
        refine ih _ _ _ ?_
        simp only [List.length_append, List.length_singleton]
        omega

theorem rrLoop_length_le (maxA : Nat) (persps : List Perspective) :
    ∀ (n : Nat) (ex : List (String × List Article)) (bal : List Article),
      exSize ex ≤ n → bal.length ≤ maxA → (rrLoop maxA persps ex bal).length ≤ maxA := by
  intro n
  induction n with
  | zero =>
    intro ex bal hex hbal
    rw [rrLoop]
    split
    · split
      · next ex' bal' h =>
        exfalso
        have hlt := rrPass_added_exSize_lt maxA persps ex bal (by rw [h])
        omega
      · next ex' bal' h =>
        have := rrPass_length_le maxA persps ex bal false hbal
        rw [h] at this
        exact this
    · exact hbal
  | succ n ih =>
    intro ex bal hex hbal
    rw [rrLoop]
    split
    · split
      · next ex' bal' h =>
        have hlt := rrPass_added_exSize_lt maxA persps ex bal (by rw [h])
        rw [h] at hlt
        have hb := rrPass_length_le maxA persps ex bal false hbal
        rw [h] at hb
        exact ih ex' bal' (by simp at hlt ⊢; omega) hb
      · next ex' bal' h =>
        have := rrPass_length_le maxA persps ex bal false hbal
        rw [h] at this
        exact this
    · exact hbal

theorem fillOthers_length_le (maxA : Nat) (l : List Article) :
    ∀ bal : List Article, bal.length < maxA → (fillOthers maxA bal l).length ≤ maxA := by
  induction l with
  | nil => intro bal h; exact Nat.le_of_lt h
  | cons a rest ih =>
    intro bal h
    simp only [fillOthers]
    by_cases hlen : maxA ≤ (bal ++ [a]).length
    · rw [if_pos hlen]
      simp only [List.length_append, List.length_singleton] at hlen ⊢
      omega
    · rw [if_neg hlen]
      exact ih (bal ++ [a]) (by omega)

/-- C3: `balanceArticleSelection` never returns more than `maxArticles`
records, for every article sequence, minimum, and topic; in particular
`maxArticles = 0` yields the empty selection. -/
theorem balanceArticleSelection_length_le (articles : List Article)
    (maxArticles minP : Nat) (topic : Option Topic) :
    (balanceArticleSelection articles maxArticles minP topic).length ≤ maxArticles
    ∧ balanceArticleSelection articles 0 minP topic = [] := by
  have key : ∀ (ms : Nat),
      (balanceArticleSelection articles ms minP topic).length ≤ ms := by
    intro ms
    unfold balanceArticleSelection
    split
    · simp
    · split
      · exact List.length_take_le ms articles
      · split
        · exact List.length_take_le ms articles
        · next t persps _ =>
          dsimp only
          set buckets := (fillBuckets persps articles).1 with hb
          set others := (fillBuckets persps articles).2 with hoth
          set target := ms / persps.length with htarget
          have hbal1 : (persps.foldl
              (fun acc p => acc ++ (objGet buckets p.id).take target) []).length ≤ ms := by
            refine le_trans (foldl_take_length_le buckets target persps []) ?_
            simp only [List.length_nil, Nat.zero_add, htarget]
            calc persps.length * (ms / persps.length)
                = ms / persps.length * persps.length := by ring
              _ ≤ ms := Nat.div_mul_le_self ms persps.length
          set balanced := persps.foldl
              (fun acc p => acc ++ (objGet buckets p.id).take target) [] with hbal
          have hbal2 : (if balanced.length < ms then
              rrLoop ms persps
                (persps.foldl (fun e p => objSet e p.id ((objGet buckets p.id).drop target)) [])
                balanced
            else balanced).length ≤ ms := by
            split
            · exact rrLoop_length_le ms persps _ _ balanced (le_refl _) hbal1
            · exact hbal1
          set balanced2 := (if balanced.length < ms then
              rrLoop ms persps
                (persps.foldl (fun e p => objSet e p.id ((objGet buckets p.id).drop target)) [])
                balanced
            else balanced) with hbal2d
          split
          · next hcond => exact fillOthers_length_le ms others balanced2 hcond.1
          · exact hbal2
  refine ⟨key maxArticles, ?_⟩
  have h0 := key 0
  exact List.length_eq_zero.mp (Nat.le_zero.mp h0)

/-- One `Map.set` step of `new Map(allArticles.map((a) => [a.url, a]))`:
a later entry with an existing key replaces that key's value in place
(keeping the key's first-insertion position); a fresh key is appended. -/
def mapInsert (m : List (String × Article)) (k : String) (v : Article) :
    List (String × Article) :=
  match m with
  | [] => [(k, v)]
  | (k', v') :: rest => if k' = k then (k, v) :: rest else (k', v') :: mapInsert rest k v

/-- The JS `Map` built from the article list keyed by URL. -/
def urlMap (articles : List Article) : List (String × Article) :=
  articles.foldl (fun m a => mapInsert m a.url a) []

/-- The URL-exact deduplication step of `fetchNewsForTopic` (lines 422-424):
`Array.from(new Map(allArticles.map((a) => [a.url, a])).values())`. -/
def uniqueByUrl (articles : List Article) : List Article :=
  (urlMap articles).map Prod.snd

/-- The distinct values of a string list in discovery order of their first
occurrences. -/
def firstKeys (ks : List String) : List String :=
  ks.foldl (fun acc k => if k ∈ acc then acc else acc ++ [k]) []

theorem firstKeys_foldl_mem (ks : List String) :
    ∀ (acc : List String) (x : String),
      x ∈ ks.foldl (fun acc k => if k ∈ acc then acc else acc ++ [k]) acc
        ↔ x ∈ acc ∨ x ∈ ks := by
  induction ks with
  | nil => intro acc x; simp
  | cons k ks ih =>
    intro acc x
    simp only [List.foldl_cons]
    rw [ih]
    by_cases hk : k ∈ acc
    · rw [if_pos hk]
      simp only [List.mem_cons]
      constructor
      · tauto
      · rintro (h | rfl | h) <;> tauto
    · rw [if_neg hk]
      simp only [List.mem_append, List.mem_singleton, List.mem_cons]
      tauto

theorem firstKeys_mem (ks : List String) (x : String) :
    x ∈ firstKeys ks ↔ x ∈ ks := by
  unfold firstKeys
  rw [firstKeys_foldl_mem]
  simp

theorem firstKeys_snoc (ks : List String) (k : String) :
    firstKeys (ks ++ [k]) = if k ∈ ks then firstKeys ks else firstKeys ks ++ [k] := by
  have h1 : firstKeys (ks ++ [k])
      = if k ∈ firstKeys ks then firstKeys ks else firstKeys ks ++ [k] := by
    unfold firstKeys
    rw [List.foldl_append]
    simp only [List.foldl_cons, List.foldl_nil]
  rw [h1]
  by_cases h : k ∈ ks
  · rw [if_pos ((firstKeys_mem ks k).mpr h), if_pos h]
  · rw [if_neg (fun hc => h ((firstKeys_mem ks k).mp hc)), if_neg h]

theorem mapInsert_of_not_mem (m : List (String × Article)) (k : String) (v : Article)
    (h : k ∉ m.map Prod.fst) : mapInsert m k v = m ++ [(k, v)] := by
  induction m with
  | nil => rfl
  | cons kv rest ih =>
    obtain ⟨k', v'⟩ := kv
    simp only [List.map_cons, List.mem_cons] at h
    push_neg at h
    simp only [mapInsert]
    rw [if_neg (fun hc => h.1 hc.symm), ih h.2]
    simp

theorem mapInsert_keys_of_mem (m : List (String × Article)) (k : String) (v : Article)
    (h : k ∈ m.map Prod.fst) :
    (mapInsert m k v).map Prod.fst = m.map Prod.fst := by
  induction m with
  | nil => simp at h
  | cons kv rest ih =>
    obtain ⟨k', v'⟩ := kv
    simp only [mapInsert]
    by_cases hk : k' = k
    · subst hk
      simp
    · rw [if_neg hk]
      simp only [List.map_cons] at h ⊢
      rcases List.mem_cons.mp h with h' | h'
      · exact absurd h'.symm hk
      · rw [ih h']

theorem mem_mapInsert (m : List (String × Article)) (k : String) (v : Article)
    (kv : String × Article) (hnd : (m.map Prod.fst).Nodup)
    (hmem : kv ∈ mapInsert m k v) :
    kv = (k, v) ∨ (kv ∈ m ∧ kv.1 ≠ k) := by
  induction m with
  | nil =>
    simp only [mapInsert, List.mem_singleton] at hmem
    exact Or.inl hmem
  | cons hd rest ih =>
    obtain ⟨k', v'⟩ := hd
    simp only [List.map_cons, List.nodup_cons] at hnd
    simp only [mapInsert] at hmem
    by_cases hk : k' = k
    · subst hk
      rw [if_pos rfl] at hmem
      rcases List.mem_cons.mp hmem with rfl | hrest
      · exact Or.inl rfl
      · right
        refine ⟨List.mem_cons_of_mem _ hrest, fun heq => ?_⟩
        have : kv.1 ∈ rest.map Prod.fst := List.mem_map_of_mem Prod.fst hrest
        rw [heq] at this
        exact hnd.1 this
    · rw [if_neg hk] at hmem
      rcases List.mem_cons.mp hmem with rfl | hrest
      · exact Or.inr ⟨List.mem_cons_self _ _, hk⟩
      · rcases ih hnd.2 hrest with h | h
        · exact Or.inl h
        · exact Or.inr ⟨List.mem_cons_of_mem _ h.1, h.2⟩

/-- The full characterisation of the URL map: its keys are the input's
URLs in discovery order of first occurrences without duplicates, and each
entry holds the LAST article of the input carrying that URL. -/
theorem urlMap_characterisation (l : List Article) :
    (urlMap l).map Prod.fst = firstKeys (l.map (fun a => a.url))
    ∧ ((urlMap l).map Prod.fst).Nodup
    ∧ ∀ kv ∈ urlMap l, kv.2.url = kv.1
        ∧ (l.filter (fun a => a.url = kv.1)).getLast? = some kv.2 := by
  induction l using List.reverseRecOn with
  | nil => refine ⟨rfl, List.nodup_nil, ?_⟩; intro kv h; simp [urlMap] at h
  | append_singleton l a ih =>
    obtain ⟨hkeys, hnd, hvals⟩ := ih
    have hstep : urlMap (l ++ [a]) = mapInsert (urlMap l) a.url a := by
      unfold urlMap
      rw [List.foldl_append]
      rfl
    have hmem_iff : a.url ∈ (urlMap l).map Prod.fst ↔ a.url ∈ l.map (fun a => a.url) := by
      rw [hkeys, firstKeys_mem]
    by_cases hmem : a.url ∈ (urlMap l).map Prod.fst
    · -- replacing an existing key
      have hkeys' : (urlMap (l ++ [a])).map Prod.fst = (urlMap l).map Prod.fst := by
        rw [hstep, mapInsert_keys_of_mem _ _ _ hmem]
      refine ⟨?_, by rw [hkeys']; exact hnd, ?_⟩
      · rw [hkeys', hkeys]
        rw [show (l ++ [a]).map (fun a => a.url) = l.map (fun a => a.url) ++ [a.url] by simp]
        rw [firstKeys_snoc, if_pos (hmem_iff.mp hmem)]
      · intro kv hkv
        rw [hstep] at hkv
        rcases mem_mapInsert _ _ _ _ hnd hkv with rfl | ⟨hin, hne⟩
        · refine ⟨rfl, ?_⟩
          rw [List.filter_append]
          simp
        · obtain ⟨hurl, hlast⟩ := hvals kv hin
          refine ⟨hurl, ?_⟩
          rw [List.filter_append]
          have : [a].filter (fun b => b.url = kv.1) = [] := by
            simp only [List.filter_eq_nil_iff]
            intro b hb
            rw [List.mem_singleton] at hb
            subst hb
            simpa using fun hc => hne.symm hc
          rw [this, List.append_nil, hlast]
    · -- appending a fresh key
      have hstep' : urlMap (l ++ [a]) = urlMap l ++ [(a.url, a)] := by
        rw [hstep, mapInsert_of_not_mem _ _ _ hmem]
      have hkeys' : (urlMap (l ++ [a])).map Prod.fst
          = (urlMap l).map Prod.fst ++ [a.url] := by
        rw [hstep']; simp
      refine ⟨?_, ?_, ?_⟩
      · rw [hkeys', hkeys]
        rw [show (l ++ [a]).map (fun a => a.url) = l.map (fun a => a.url) ++ [a.url] by simp]
        rw [firstKeys_snoc, if_neg (fun hc => hmem (hmem_iff.mpr hc))]
      · rw [hkeys']
        refine List.Nodup.append hnd (List.nodup_singleton _) ?_
        intro x hx
        simp only [List.mem_singleton]
        intro hax
        subst hax
        exact hmem hx
      · intro kv hkv
        rw [hstep', List.mem_append, List.mem_singleton] at hkv
        rcases hkv with hin | rfl
        · obtain ⟨hurl, hlast⟩ := hvals kv hin
          refine ⟨hurl, ?_⟩
          rw [List.filter_append]
          have : [a].filter (fun b => b.url = kv.1) = [] := by
            simp only [List.filter_eq_nil_iff]
            intro b hb
            rw [List.mem_singleton] at hb
            subst hb
            intro hc
            apply hmem
            rw [of_decide_eq_true hc]
            exact List.mem_map_of_mem Prod.fst hin
          rw [this, List.append_nil, hlast]
        · refine ⟨rfl, ?_⟩
          rw [List.filter_append]
          have hnil : l.filter (fun b => b.url = a.url) = [] := by
            simp only [List.filter_eq_nil_iff]
            intro b hb hc
            apply hmem
            rw [hmem_iff, ← of_decide_eq_true hc]
            exact List.mem_map_of_mem (fun a => a.url) hb
          rw [hnil]
          simp

/-- An article with a URL shared with `cexArticleB` but a different title. -/
def cexArticleA : Article :=
  { title := "First occurrence", url := "https://example.com/x", publishedAt := "",
    description := "", sourceName := "", metadata := none }

/-- An article with a URL shared with `cexArticleA` but a different title. -/
def cexArticleB : Article :=
  { title := "Second occurrence", url := "https://example.com/x", publishedAt := "",
    description := "", sourceName := "", metadata := none }

/-- C1 counterexample: with two distinct articles sharing a URL, the URL
deduplication of `fetchNewsForTopic` keeps the SECOND (`new Map` overwrites
the value at an existing key), not the first occurrence as claimed. -/
theorem uniqueByUrl_keeps_second_counterexample :
    uniqueByUrl [cexArticleA, cexArticleB] = [cexArticleB]
    ∧ uniqueByUrl [cexArticleA, cexArticleB] ≠ [cexArticleA] := by
  refine ⟨rfl, ?_⟩
  intro h
  rw [show uniqueByUrl [cexArticleA, cexArticleB] = [cexArticleB] from rfl] at h
  have : cexArticleB = cexArticleA := by injection h
  exact absurd (congrArg Article.title this) (by decide)

/-- C1 amended: the URL deduplication keeps, for each distinct url value,
the LAST occurrence of an article with that url, and the output order is
the discovery order of the first occurrences of those urls. -/
theorem uniqueByUrl_order_and_values (articles : List Article) :
    (uniqueByUrl articles).map (fun a => a.url)
        = firstKeys (articles.map (fun a => a.url))
    ∧ ∀ a ∈ uniqueByUrl articles,
        (articles.filter (fun b => b.url = a.url)).getLast? = some a := by
  obtain ⟨hkeys, _, hvals⟩ := urlMap_characterisation articles
  constructor
  · rw [← hkeys]
    unfold uniqueByUrl
    rw [List.map_map]
    exact List.map_congr_left (fun kv hkv => (hvals kv hkv).1)
  · intro a ha
    unfold uniqueByUrl at ha
    rw [List.mem_map] at ha
    obtain ⟨kv, hkv, rfl⟩ := ha
    obtain ⟨hurl, hlast⟩ := hvals kv hkv
    rw [show kv.2.url = kv.1 from hurl]
    exact hlast

theorem uniqueByUrl_order_and_values_witness :
    (uniqueByUrl [cexArticleA, cexArticleB]).map (fun a => a.url)
        = firstKeys ([cexArticleA, cexArticleB].map (fun a => a.url))
    ∧ ([cexArticleA, cexArticleB].filter
        (fun b => b.url = cexArticleB.url)).getLast? = some cexArticleB :=
  ⟨(uniqueByUrl_order_and_values [cexArticleA, cexArticleB]).1,
   (uniqueByUrl_order_and_values [cexArticleA, cexArticleB]).2 cexArticleB (by decide)⟩

/-- A raw RSS `<item>` as consumed by the mapping inside `parseRSSFeed`:
every field is optional in the feed document. -/
structure RSSItem where
  title : Option String
  link : Option String
  pubDate : Option String
  description : Option String
deriving DecidableEq

/-- JS `opt || dflt` for an optional string read into a string field. -/
def jsOrDefault (o : Option String) (dflt : String) : String :=
  if jsTruthy o then o.getD "" else dflt

/-- The derived perspective of `parseRSSFeed`: explicit per-feed perspective
lower-cased, else the language/region defaulting chain. -/
def derivedPerspective (language region : String) (perspective : Option String) : String :=
  if jsTruthy perspective then lowerString (perspective.getD "")
  else if language = "es" ∧ region = "VE" then "venezuelan"
  else if region = "US" then "us"
  else "international"

/-- `item.title?.split(" - ") || []`. -/
def jsTitleParts (title : Option String) : List String :=
  match title with
  | none => []
  | some t => t.splitOn " - "

/-- The per-item mapping of `parseRSSFeed` (lines 320-343): source split
out of the Google News title, `item.link || ""` as url, `item.pubDate` or
the ingestion time, and the feed's language/region/derived-perspective
metadata. -/
def parseFeedItem (language region : String) (perspective : Option String)
    (nowISO : String) (item : RSSItem) : Article :=
  let titleParts := jsTitleParts item.title
  let source := if 1 < titleParts.length then titleParts.getLastD "" else "Google News"
  let titleJoined : Option String :=
    if 1 < titleParts.length then some (String.intercalate " - " titleParts.dropLast)
    else item.title
  let dp := derivedPerspective language region perspective
  { title := jsOrDefault titleJoined "Untitled"
    url := jsOrDefault item.link ""
    publishedAt := jsOrDefault item.pubDate nowISO
    description := jsOrDefault item.description ""
    sourceName := source
    metadata := some { language := language, region := region,
                       feedType := some dp, perspective := some dp } }

/-- The item list mapping of `parseRSSFeed`. -/
def parseFeedItems (language region : String) (perspective : Option String)
    (nowISO : String) (items : List RSSItem) : List Article :=
  items.map (parseFeedItem language region perspective nowISO)

theorem countP_eq_le_one_of_nodup (us : List String) (x : String) (h : us.Nodup) :
    us.countP (fun u => u = x) ≤ 1 := by
  induction us with
  | nil => simp
  | cons u rest ih =>
    rw [List.countP_cons]
    rcases List.nodup_cons.mp h with ⟨hu, hrest⟩
    by_cases hx : u = x
    · subst hx
      have hzero : rest.countP (fun v => v = u) = 0 := by
        rw [List.countP_eq_zero]
        intro a ha h'
        rw [of_decide_eq_true h'] at ha
        exact hu ha
      simp [hzero]
    · have h0 : decide (u = x) = false := decide_eq_false hx
      simp only [h0, Bool.false_eq_true, if_false, Nat.add_zero]
      exact ih hrest

/-- C10: an item whose feed omitted (or emptied) the link is parsed with
`url == ""`, and after the URL-exact deduplication at most one record with
the empty url survives. -/
theorem uniqueByUrl_at_most_one_linkless :
    (∀ (language region : String) (perspective : Option String) (nowISO : String)
        (item : RSSItem), ¬ jsTruthy item.link = true →
          (parseFeedItem language region perspective nowISO item).url = "")
    ∧ ∀ articles : List Article,
        ((uniqueByUrl articles).filter (fun a => a.url = "")).length ≤ 1 := by
  constructor
  · intro language region perspective nowISO item hlink
    simp [parseFeedItem, jsOrDefault, hlink]
  · intro articles
    obtain ⟨hkeys, hnd, hvals⟩ := urlMap_characterisation articles
    have hmap : (uniqueByUrl articles).map (fun a => a.url)
        = (urlMap articles).map Prod.fst := by
      unfold uniqueByUrl
      rw [List.map_map]
      exact List.map_congr_left (fun kv hkv => (hvals kv hkv).1)
    have hnd' : ((uniqueByUrl articles).map (fun a => a.url)).Nodup := by
      rw [hmap]; exact hnd
    have h1 : ((uniqueByUrl articles).filter (fun a => a.url = "")).length
        = ((uniqueByUrl articles).map (fun a => a.url)).countP (fun u => u = "") := by
      rw [← List.countP_eq_length_filter, List.countP_map]
      rfl
    rw [h1]
    exact countP_eq_le_one_of_nodup _ "" hnd'

/-- The per-feed collection loop of `fetchNewsForTopic` (lines 363-409):
feeds are processed in declaration order; non-`google_news` feeds and feeds
with no resolvable query are skipped; a feed whose fetch (after retries)
fails is skipped; a successful feed's date-filtered articles are stored in
the `feedArticles` object under the key `` `${feed.language}-${feed.region}` ``.
The fetch outcome of the feed at each position is supplied as `outcome`,
and `new Date(...)` is abstracted by `parseDate`. -/
def collectFeeds (tq : Option String) (parseDate : String → Int) (cutoff : Int)
    (outcome : Nat → Except Unit (List Article)) :
    Nat → List Feed → List (String × List Article) → List (String × List Article)
  | _, [], m => m
  | i, f :: fs, m =>
    if f.type ≠ "google_news" then collectFeeds tq parseDate cutoff outcome (i + 1) fs m
    else if ¬ jsTruthy (jsOrStr f.query tq) then
      collectFeeds tq parseDate cutoff outcome (i + 1) fs m
    else
      match outcome i with
      | .error _ => collectFeeds tq parseDate cutoff outcome (i + 1) fs m
      | .ok arts =>
        collectFeeds tq parseDate cutoff outcome (i + 1) fs
          (objSet m (f.language ++ "-" ++ f.region)
            (arts.filter (fun a => cutoff ≤ parseDate a.publishedAt)))

/-- `Object.values(feedArticles).flat()` (line 412): the merged article
sequence of `fetchNewsForTopic` before URL deduplication. -/
def mergeFeedArticles (topic : Topic) (parseDate : String → Int) (cutoff : Int)
    (outcome : Nat → Except Unit (List Article)) : List Article :=
  ((collectFeeds topic.query parseDate cutoff outcome 0 topic.rssFeeds []).map
    Prod.snd).flatten

/-- A feed querying "economia" for the `es`-`VE` locale. -/
def cexFeed1 : Feed :=
  { type := "google_news", language := "es", region := "VE",
    query := some "economia", perspective := none }

/-- A feed querying "politica" for the same `es`-`VE` locale. -/
def cexFeed2 : Feed :=
  { type := "google_news", language := "es", region := "VE",
    query := some "politica", perspective := none }

/-- A topic declaring the two same-locale feeds. -/
def cexTopic : Topic :=
  { query := none, perspectives := none, rssFeeds := [cexFeed1, cexFeed2] }

/-- The single article returned by the first feed's fetch. -/
def cexFeedArt1 : Article :=
  { title := "From feed one", url := "https://example.com/1", publishedAt := "",
    description := "", sourceName := "", metadata := none }

/-- The single article returned by the second feed's fetch. -/
def cexFeedArt2 : Article :=
  { title := "From feed two", url := "https://example.com/2", publishedAt := "",
    description := "", sourceName := "", metadata := none }

/-- Fetch outcomes: both feeds succeed, each with its own article. -/
def cexOutcome : Nat → Except Unit (List Article)
  | 0 => .ok [cexFeedArt1]
  | 1 => .ok [cexFeedArt2]
  | _ => .error ()

/-- C5: evaluation at the failing input.  Both fetches succeed (no feed
fails at all), yet the merged sequence holds only the second feed's
article: `feedArticles` is keyed by `language-region`, so the second feed's
assignment overwrites the first feed's entry and the first feed's records
are silently dropped, contradicting the claim that every successfully
fetched feed's records are merged. -/
theorem mergeFeedArticles_drops_successful_feed :
    mergeFeedArticles cexTopic (fun _ => 0) 0 cexOutcome = [cexFeedArt2]
    ∧ cexFeedArt1 ∉ mergeFeedArticles cexTopic (fun _ => 0) 0 cexOutcome := by
  refine ⟨rfl, ?_⟩
  rw [show mergeFeedArticles cexTopic (fun _ => 0) 0 cexOutcome = [cexFeedArt2] from rfl]
  intro h
  rw [List.mem_singleton] at h
  exact absurd (congrArg Article.title h) (by decide)

theorem objGet_objSet_same (m : List (String × List Article)) (k : String)
    (v : List Article) : objGet (objSet m k v) k = v := by
  induction m with
  | nil => simp [objSet, objGet]
  | cons kv rest ih =>
    obtain ⟨k', v'⟩ := kv
    by_cases h : k' = k <;> simp [objSet, objGet, h, ih]

theorem objGet_objSet_other (m : List (String × List Article)) (k k' : String)
    (v : List Article) (h : k' ≠ k) : objGet (objSet m k v) k' = objGet m k' := by
  have hne : ¬ (k = k') := fun hc => h hc.symm
  induction m with
  | nil =>
    simp only [objSet, objGet]
    rw [if_neg hne]
  | cons kv rest ih =>
    obtain ⟨k'', v''⟩ := kv
    simp only [objSet]
    by_cases hk : k'' = k
    · rw [if_pos hk]
      simp only [objGet]
      rw [if_neg hne, if_neg (by rw [hk]; exact hne)]
    · rw [if_neg hk]
      simp only [objGet]
      by_cases hk' : k'' = k'
      · rw [if_pos hk', if_pos hk']
      · rw [if_neg hk', if_neg hk', ih]

theorem objSet_of_not_mem (m : List (String × List Article)) (k : String)
    (v : List Article) (h : k ∉ m.map Prod.fst) : objSet m k v = m ++ [(k, v)] := by
  induction m with
  | nil => rfl
  | cons kv rest ih =>
    obtain ⟨k', v'⟩ := kv
    simp only [List.map_cons, List.mem_cons] at h
    push_neg at h
    simp only [objSet]
    rw [if_neg (fun hc => h.1 hc.symm), ih h.2]
    simp

theorem foldl_objSet_map (f : Perspective → List Article) (persps : List Perspective) :
    ∀ init : List (String × List Article),
      (∀ p ∈ persps, p.id ∉ init.map Prod.fst) →
      (persps.map Perspective.id).Nodup →
      persps.foldl (fun e p => objSet e p.id (f p)) init
        = init ++ persps.map (fun p => (p.id, f p)) := by
  induction persps with
  | nil => intro init _ _; simp
  | cons p ps ih =>
    intro init hfresh hnd
    simp only [List.map_cons, List.nodup_cons] at hnd
    simp only [List.foldl_cons]
    rw [objSet_of_not_mem init p.id (f p) (hfresh p (List.mem_cons_self _ _))]
    rw [ih (init ++ [(p.id, f p)]) ?_ hnd.2]
    · simp
    · intro q hq
      simp only [List.map_append, List.mem_append, List.map_cons, List.map_nil,
        List.mem_singleton]
      push_neg
      refine ⟨hfresh q (List.mem_cons_of_mem _ hq), fun hc => hnd.1 ?_⟩
      rw [← hc]
      exact List.mem_map_of_mem Perspective.id hq

theorem objGet_map_form (f : Perspective → List Article) (persps : List Perspective)
    (hnd : (persps.map Perspective.id).Nodup) (p : Perspective) (hp : p ∈ persps) :
    objGet (persps.map (fun q => (q.id, f q))) p.id = f p := by
  induction persps with
  | nil => cases hp
  | cons q qs ih =>
    simp only [List.map_cons, List.nodup_cons] at hnd
    rcases List.mem_cons.mp hp with rfl | hp'
    · simp [objGet]
    · have hne : q.id ≠ p.id := fun hc => hnd.1 (hc ▸ List.mem_map_of_mem Perspective.id hp')
      simp only [List.map_cons, objGet]
      rw [if_neg hne]
      exact ih hnd.2 hp'

theorem objGet_map_form_other (f : Perspective → List Article) (persps : List Perspective)
    (k : String) (h : ∀ p ∈ persps, p.id ≠ k) :
    objGet (persps.map (fun q => (q.id, f q))) k = [] := by
  induction persps with
  | nil => rfl
  | cons q qs ih =>
    simp only [List.map_cons, objGet]
    rw [if_neg (h q (List.mem_cons_self _ _))]
    exact ih (fun p hp => h p (List.mem_cons_of_mem _ hp))

theorem objSet_map_form (f : Perspective → List Article) (persps : List Perspective)
    (hnd : (persps.map Perspective.id).Nodup) (p₀ : Perspective) (hp₀ : p₀ ∈ persps)
    (v : List Article) :
    objSet (persps.map (fun q => (q.id, f q))) p₀.id v
      = persps.map (fun q => (q.id, if q.id = p₀.id then v else f q)) := by
  induction persps with
  | nil => cases hp₀
  | cons q qs ih =>
    simp only [List.map_cons, List.nodup_cons] at hnd
    rcases List.mem_cons.mp hp₀ with heq | hp'
    · rw [heq]
      simp only [List.map_cons, objSet, if_pos rfl]
      refine congrArg₂ List.cons (by simp) ?_
      refine (List.map_congr_left ?_).symm
      intro r hr
      have : r.id ≠ q.id := fun hc => hnd.1 (hc ▸ List.mem_map_of_mem Perspective.id hr)
      rw [if_neg this]
    · have hne : q.id ≠ p₀.id := fun hc => hnd.1 (hc ▸ List.mem_map_of_mem Perspective.id hp')
      simp only [List.map_cons, objSet]
      rw [if_neg hne, if_neg hne, ih hnd.2 hp']

theorem foldl_bucketStep (persps : List Perspective)
    (hnd : (persps.map Perspective.id).Nodup) (l : List Article) :
    ∀ (g : Perspective → List Article) (os : List Article),
      l.foldl (bucketStep persps) (persps.map (fun p => (p.id, g p)), os)
        = (persps.map (fun p =>
              (p.id, g p ++ l.filter (fun a => articlePid a == some p.id))),
           os ++ l.filter
              (fun a => (persps.find? (fun p => articlePid a == some p.id)).isNone)) := by
  induction l with
  | nil => intro g os; simp
  | cons a rest ih =>
    intro g os
    simp only [List.foldl_cons]
    cases hfind : persps.find? (fun p => articlePid a == some p.id) with
    | none =>
      have hstep : bucketStep persps (persps.map (fun p => (p.id, g p)), os) a
          = (persps.map (fun p => (p.id, g p)), os ++ [a]) := by
        simp [bucketStep, hfind]
      rw [hstep, ih g (os ++ [a])]
      have hnomatch := List.find?_eq_none.mp hfind
      refine Prod.ext ?_ ?_
      · dsimp only
        refine List.map_congr_left ?_
        intro p hp
        rw [List.filter_cons_of_neg (by simpa using hnomatch p hp)]
      · dsimp only
        rw [List.filter_cons_of_pos (by simp [hfind]), List.append_assoc]
        rfl
    | some p₀ =>
      have hp₀ : p₀ ∈ persps := List.mem_of_find?_eq_some hfind
      have hmatch : (articlePid a == some p₀.id) = true := by
        have := List.find?_some hfind
        simpa using this
      have hstep : bucketStep persps (persps.map (fun p => (p.id, g p)), os) a
          = (persps.map (fun q =>
                (q.id, if q.id = p₀.id then g p₀ ++ [a] else g q)), os) := by
        simp only [bucketStep, hfind]
        rw [objGet_map_form g persps hnd p₀ hp₀,
          objSet_map_form g persps hnd p₀ hp₀ (g p₀ ++ [a])]
      rw [hstep]
      rw [ih (fun q => if q.id = p₀.id then g p₀ ++ [a] else g q) os]
      refine Prod.ext ?_ ?_
      · dsimp only
        refine List.map_congr_left ?_
        intro p hp
        by_cases hpe : p.id = p₀.id
        · have hpp : p = p₀ := List.inj_on_of_nodup_map hnd hp hp₀ hpe
          subst hpp
          rw [if_pos rfl]
          simp [List.filter_cons, hmatch]
        · rw [if_neg hpe]
          have hpid : articlePid a = some p₀.id := by simpa using hmatch
          have hcond : (articlePid a == some p.id) = false := by
            rw [hpid]
            simp only [beq_eq_false_iff_ne, ne_eq, Option.some.injEq]
            exact fun hc => hpe hc.symm
          simp [List.filter_cons, hcond]
      · dsimp only
        rw [List.filter_cons_of_neg (by simp [hfind])]

/-- The bucket partition characterised: with distinct declared perspective
ids, each bucket is the input filtered to the articles classifying to that
perspective, and `otherArticles` is the input filtered to the unmatched
records; input order is preserved everywhere. -/
theorem fillBuckets_characterisation (persps : List Perspective) (articles : List Article)
    (hnd : (persps.map Perspective.id).Nodup) :
    fillBuckets persps articles
      = (persps.map (fun p =>
            (p.id, articles.filter (fun a => articlePid a == some p.id))),
         articles.filter
            (fun a => (persps.find? (fun p => articlePid a == some p.id)).isNone)) := by
  unfold fillBuckets
  have hinit : persps.foldl (fun b p => objSet b p.id []) []
      = persps.map (fun p => (p.id, ([] : List Article))) := by
    have := foldl_objSet_map (fun _ => []) persps [] (by simp) hnd
    simpa using this
  rw [hinit]
  have := foldl_bucketStep persps hnd articles (fun _ => []) []
  simpa using this

/-- The extras still available for an article class: the stored list for a
declared perspective id, nothing for the unclassified class. -/
def exQ (ex : List (String × List Article)) : Option String → List Article
  | some k => objGet ex k
  | none => []

theorem objGet_mem (m : List (String × List Article)) (k : String)
    (h : objGet m k ≠ []) : (k, objGet m k) ∈ m := by
  induction m with
  | nil => simp [objGet] at h
  | cons kv rest ih =>
    obtain ⟨k', v⟩ := kv
    simp only [objGet] at h ⊢
    by_cases hk : k' = k
    · subst hk
      rw [if_pos rfl] at h ⊢
      exact List.mem_cons_self _ _
    · rw [if_neg hk] at h ⊢
      exact List.mem_cons_of_mem _ (ih h)

theorem mem_objSet (m : List (String × List Article)) (k : String)
    (v : List Article) (kv : String × List Article) (h : kv ∈ objSet m k v) :
    kv ∈ m ∨ kv = (k, v) := by
  induction m with
  | nil =>
    simp only [objSet, List.mem_singleton] at h
    exact Or.inr h
  | cons hd rest ih =>
    obtain ⟨k', v'⟩ := hd
    simp only [objSet] at h
    by_cases hk : k' = k
    · rw [if_pos hk] at h
      rcases List.mem_cons.mp h with rfl | hrest
      · exact Or.inr rfl
      · exact Or.inl (List.mem_cons_of_mem _ hrest)
    · rw [if_neg hk] at h
      rcases List.mem_cons.mp h with rfl | hrest
      · exact Or.inl (List.mem_cons_self _ _)
      · rcases ih hrest with h' | h'
        · exact Or.inl (List.mem_cons_of_mem _ h')
        · exact Or.inr h'

/-- Well-formed extras: every stored article classifies to its key. -/
def ExWF (ex : List (String × List Article)) : Prop :=
  ∀ kv ∈ ex, ∀ a ∈ kv.2, articlePid a = some kv.1

theorem rrPass_wf (maxA : Nat) (ps : List Perspective) :
    ∀ (ex : List (String × List Article)) (bal : List Article) (added : Bool),
      ExWF ex → ExWF (rrPass maxA ps ex bal added).1 := by
  induction ps with
  | nil => intro ex bal added h; exact h
  | cons p ps ih =>
    intro ex bal added hwf
    simp only [rrPass]
    by_cases hlen : maxA ≤ bal.length
    · rw [if_pos hlen]; exact hwf
    · rw [if_neg hlen]
      cases hx : objGet ex p.id with
      | nil => exact ih ex bal added hwf
      | cons x xs =>
        refine ih _ _ _ ?_
        intro kv hkv a ha
        rcases mem_objSet ex p.id xs kv hkv with h' | rfl
        · exact hwf kv h' a ha
        · have hx' : objGet ex p.id ≠ [] := by rw [hx]; simp
          have hmem := objGet_mem ex p.id hx'
          rw [hx] at hmem
          exact hwf (p.id, x :: xs) hmem a (by simp [ha])

theorem rrPass_filter_invariant (maxA : Nat) (ps : List Perspective) :
    ∀ (ex : List (String × List Article)) (bal : List Article) (added : Bool)
      (q : Option String), ExWF ex →
      (rrPass maxA ps ex bal added).2.1.filter (fun a => articlePid a == q)
          ++ exQ (rrPass maxA ps ex bal added).1 q
        = bal.filter (fun a => articlePid a == q) ++ exQ ex q := by
  induction ps with
  | nil => intro ex bal added q _; rfl
  | cons p ps ih =>
    intro ex bal added q hwf
    simp only [rrPass]
    by_cases hlen : maxA ≤ bal.length
    · rw [if_pos hlen]
    · rw [if_neg hlen]
      cases hx : objGet ex p.id with
      | nil => exact ih ex bal added q hwf
      | cons x xs =>
        have hx' : objGet ex p.id ≠ [] := by rw [hx]; simp
        have hentry := objGet_mem ex p.id hx'
        rw [hx] at hentry
        have hxpid : articlePid x = some p.id := hwf (p.id, x :: xs) hentry x (by simp)
        have hwf' : ExWF (objSet ex p.id xs) := by
          intro kv hkv a ha
          rcases mem_objSet ex p.id xs kv hkv with h' | rfl
          · exact hwf kv h' a ha
          · exact hwf (p.id, x :: xs) hentry a (by simp [ha])
        rw [ih (objSet ex p.id xs) (bal ++ [x]) true q hwf']
        rw [List.filter_append]
        cases q with
        | none =>
          simp only [exQ]
          have : [x].filter (fun a => articlePid a == none) = [] := by
            simp [hxpid]
          rw [this, List.append_nil]
        | some k =>
          simp only [exQ]
          by_cases hk : k = p.id
          · subst hk
            have hfx : [x].filter (fun a => articlePid a == some p.id) = [x] := by
              simp [hxpid]
            rw [hfx, objGet_objSet_same, hx, List.append_assoc]
            rfl
          · have hfx : [x].filter (fun a => articlePid a == some k) = [] := by
              simp only [List.filter_cons, List.filter_nil, hxpid]
              rw [if_neg ?_]
              simp only [beq_iff_eq, Option.some.injEq, decide_eq_true_eq]
              exact fun hc => hk hc.symm
            rw [hfx, List.append_nil, objGet_objSet_other ex p.id k xs hk]

theorem rrLoop_filter_invariant (maxA : Nat) (persps : List Perspective) :
    ∀ (n : Nat) (ex : List (String × List Article)) (bal : List Article),
      exSize ex ≤ n → ExWF ex → ∀ q : Option String,
      ∃ X, (rrLoop maxA persps ex bal).filter (fun a => articlePid a == q) ++ X
          = bal.filter (fun a => articlePid a == q) ++ exQ ex q := by
  intro n
  induction n with
  | zero =>
    intro ex bal hex hwf q
    rw [rrLoop]
    split
    · split
      · next ex' bal' h =>
        exfalso
        have hlt := rrPass_added_exSize_lt maxA persps ex bal (by rw [h])
        omega
      · next ex' bal' h =>
        refine ⟨exQ ex' q, ?_⟩
        have hinv := rrPass_filter_invariant maxA persps ex bal false q hwf
        rw [h] at hinv
        exact hinv
    · exact ⟨exQ ex q, rfl⟩
  | succ n ihn =>
    intro ex bal hex hwf q
    rw [rrLoop]
    split
    · split
      · next ex' bal' h =>
        have hlt := rrPass_added_exSize_lt maxA persps ex bal (by rw [h])
        rw [h] at hlt
        have hwf' : ExWF ex' := by
          have := rrPass_wf maxA persps ex bal false hwf
          rw [h] at this
          exact this
        obtain ⟨X, hX⟩ := ihn ex' bal' (by simp at hlt ⊢; omega) hwf' q
        refine ⟨X, ?_⟩
        rw [hX]
        have hinv := rrPass_filter_invariant maxA persps ex bal false q hwf
        rw [h] at hinv
        exact hinv
      · next ex' bal' h =>
        refine ⟨exQ ex' q, ?_⟩
        have hinv := rrPass_filter_invariant maxA persps ex bal false q hwf
        rw [h] at hinv
        exact hinv
    · exact ⟨exQ ex q, rfl⟩

theorem fillOthers_eq_take (maxA : Nat) (l : List Article) :
    ∀ bal : List Article, ∃ m : Nat, fillOthers maxA bal l = bal ++ l.take m := by
  induction l with
  | nil => intro bal; exact ⟨0, by simp [fillOthers]⟩
  | cons a rest ih =>
    intro bal
    simp only [fillOthers]
    by_cases h : maxA ≤ (bal ++ [a]).length
    · rw [if_pos h]
      exact ⟨1, by simp⟩
    · rw [if_neg h]
      obtain ⟨m, hm⟩ := ih (bal ++ [a])
      refine ⟨m + 1, ?_⟩
      rw [hm, List.take_succ_cons, List.append_assoc]
      rfl

theorem foldl_append_eq_flatten (h : Perspective → List Article)
    (persps : List Perspective) :
    ∀ init : List Article,
      persps.foldl (fun acc p => acc ++ h p) init = init ++ (persps.map h).flatten := by
  induction persps with
  | nil => intro init; simp
  | cons p ps ih =>
    intro init
    simp only [List.foldl_cons, List.map_cons, List.flatten_cons]
    rw [ih (init ++ h p), List.append_assoc]

theorem take_bucket_filter_ne (articles : List Article) (n : Nat) (r : Perspective)
    (q : Option String) (h : q ≠ some r.id) :
    ((articles.filter (fun a => articlePid a == some r.id)).take n).filter
        (fun a => articlePid a == q) = [] := by
  rw [List.filter_eq_nil_iff]
  intro a ha
  have hpid : articlePid a = some r.id := by
    have := (List.mem_filter.mp (List.mem_of_mem_take ha)).2
    simpa using this
  simp only [hpid, beq_iff_eq]
  exact fun hc => h hc.symm

theorem take_bucket_filter_self (articles : List Article) (n : Nat) (p : Perspective) :
    ((articles.filter (fun a => articlePid a == some p.id)).take n).filter
        (fun a => articlePid a == some p.id)
      = (articles.filter (fun a => articlePid a == some p.id)).take n := by
  rw [List.filter_eq_self]
  intro a ha
  exact (List.mem_filter.mp (List.mem_of_mem_take ha)).2

theorem balanced1_filter_other (articles : List Article) (target : Nat)
    (q : Option String) (persps : List Perspective)
    (h : ∀ r ∈ persps, q ≠ some r.id) :
    ((persps.map (fun r =>
        (articles.filter (fun a => articlePid a == some r.id)).take target)).flatten).filter
        (fun a => articlePid a == q) = [] := by
  induction persps with
  | nil => rfl
  | cons r rs ih =>
    simp only [List.map_cons, List.flatten_cons, List.filter_append]
    rw [take_bucket_filter_ne articles target r q (h r (List.mem_cons_self _ _)),
      ih (fun r' hr' => h r' (List.mem_cons_of_mem _ hr'))]
    rfl

theorem balanced1_filter_declared (articles : List Article) (target : Nat)
    (persps : List Perspective) (hnd : (persps.map Perspective.id).Nodup)
    (p : Perspective) (hp : p ∈ persps) :
    ((persps.map (fun r =>
        (articles.filter (fun a => articlePid a == some r.id)).take target)).flatten).filter
        (fun a => articlePid a == some p.id)
      = (articles.filter (fun a => articlePid a == some p.id)).take target := by
  induction persps with
  | nil => cases hp
  | cons r rs ih =>
    simp only [List.map_cons, List.nodup_cons] at hnd
    simp only [List.map_cons, List.flatten_cons, List.filter_append]
    rcases List.mem_cons.mp hp with heq | hp'
    · rw [← heq] at hnd ⊢
      rw [take_bucket_filter_self]
      rw [balanced1_filter_other articles target (some p.id) rs ?_]
      · rw [List.append_nil]
      · intro r' hr' hc
        apply hnd.1
        rw [Option.some.inj hc]
        exact List.mem_map_of_mem Perspective.id hr'
    · have hne : some p.id ≠ some r.id := by
        intro hc
        apply hnd.1
        rw [← Option.some.inj hc]
        exact List.mem_map_of_mem Perspective.id hp'
      rw [take_bucket_filter_ne articles target r (some p.id) hne, ih hnd.2 hp']
      rfl

/-- Whether the declared perspective ids of a topic are pairwise distinct
(the spec's data model declares them as an ordered set). -/
def topicIdsNodup : Option Topic → Prop
  | none => True
  | some t =>
    match t.perspectives with
    | none => True
    | some persps => (persps.map Perspective.id).Nodup

/-- Whether an article falls into the "other" bucket of
`balanceArticleSelection`: it classifies to none of the topic's declared
perspectives (everything, when no topic or perspectives are declared and
the function degenerates to a plain slice). -/
def unclassifiedFor (topic : Option Topic) (a : Article) : Bool :=
  match topic with
  | none => true
  | some t =>
    match t.perspectives with
    | none => true
    | some persps => (persps.find? (fun p => articlePid a == some p.id)).isNone

theorem find?_isNone_false_of_match (persps : List Perspective) (a : Article)
    (r : Perspective) (hr : r ∈ persps) (h : (articlePid a == some r.id) = true) :
    (persps.find? (fun p => articlePid a == some p.id)).isNone = false := by
  cases hfind : persps.find? (fun p => articlePid a == some p.id) with
  | none => exact absurd h (by simpa using List.find?_eq_none.mp hfind r hr)
  | some p => rfl

theorem take_bucket_filter_unclassified (articles : List Article) (n : Nat)
    (persps : List Perspective) (r : Perspective) (hr : r ∈ persps) :
    ((articles.filter (fun a => articlePid a == some r.id)).take n).filter
        (fun a => (persps.find? (fun p => articlePid a == some p.id)).isNone) = [] := by
  rw [List.filter_eq_nil_iff]
  intro a ha
  have hmatch : (articlePid a == some r.id) = true :=
    (List.mem_filter.mp (List.mem_of_mem_take ha)).2
  rw [find?_isNone_false_of_match persps a r hr hmatch]
  simp

theorem balanced1_filter_unclassified (articles : List Article) (n : Nat)
    (persps : List Perspective) :
    ∀ rs : List Perspective, (∀ r ∈ rs, r ∈ persps) →
    ((rs.map (fun r =>
        (articles.filter (fun a => articlePid a == some r.id)).take n)).flatten).filter
        (fun a => (persps.find? (fun p => articlePid a == some p.id)).isNone) = [] := by
  intro rs
  induction rs with
  | nil => intro _; rfl
  | cons r rs ih =>
    intro hsub
    simp only [List.map_cons, List.flatten_cons, List.filter_append]
    rw [take_bucket_filter_unclassified articles n persps r (hsub r (List.mem_cons_self _ _)),
      ih (fun r' hr' => hsub r' (List.mem_cons_of_mem _ hr'))]
    rfl

theorem rrPass_pred_false (maxA : Nat) (ps : List Perspective) (pred : Article → Bool) :
    ∀ (ex : List (String × List Article)) (bal : List Article) (added : Bool),
      (∀ kv ∈ ex, ∀ a ∈ kv.2, pred a = false) →
      (rrPass maxA ps ex bal added).2.1.filter pred = bal.filter pred
      ∧ ∀ kv ∈ (rrPass maxA ps ex bal added).1, ∀ a ∈ kv.2, pred a = false := by
  induction ps with
  | nil => intro ex bal added h; exact ⟨rfl, h⟩
  | cons p ps ih =>
    intro ex bal added h
    simp only [rrPass]
    by_cases hlen : maxA ≤ bal.length
    · rw [if_pos hlen]; exact ⟨rfl, h⟩
    · rw [if_neg hlen]
      cases hx : objGet ex p.id with
      | nil => exact ih ex bal added h
      | cons x xs =>
        have hx' : objGet ex p.id ≠ [] := by rw [hx]; simp
        have hentry := objGet_mem ex p.id hx'
        rw [hx] at hentry
        have hxfalse : pred x = false := h (p.id, x :: xs) hentry x (by simp)
        have h' : ∀ kv ∈ objSet ex p.id xs, ∀ a ∈ kv.2, pred a = false := by
          intro kv hkv a ha
          rcases mem_objSet ex p.id xs kv hkv with hin | rfl
          · exact h kv hin a ha
          · exact h (p.id, x :: xs) hentry a (by simp [ha])
        obtain ⟨hfil, hwf⟩ := ih (objSet ex p.id xs) (bal ++ [x]) true h'
        refine ⟨?_, hwf⟩
        rw [hfil, List.filter_append]
        simp [hxfalse]

theorem rrLoop_pred_false (maxA : Nat) (persps : List Perspective) (pred : Article → Bool) :
    ∀ (n : Nat) (ex : List (String × List Article)) (bal : List Article),
      exSize ex ≤ n → (∀ kv ∈ ex, ∀ a ∈ kv.2, pred a = false) →
      (rrLoop maxA persps ex bal).filter pred = bal.filter pred := by
  intro n
  induction n with
  | zero =>
    intro ex bal hex h
    rw [rrLoop]
    split
    · split
      · next ex' bal' heq =>
        exfalso
        have hlt := rrPass_added_exSize_lt maxA persps ex bal (by rw [heq])
        omega
      · next ex' bal' heq =>
        have := (rrPass_pred_false maxA persps pred ex bal false h).1
        rw [heq] at this
        exact this
    · rfl
  | succ n ihn =>
    intro ex bal hex h
    rw [rrLoop]
    split
    · split
      · next ex' bal' heq =>
        have hlt := rrPass_added_exSize_lt maxA persps ex bal (by rw [heq])
        rw [heq] at hlt
        obtain ⟨hfil, hwf⟩ := rrPass_pred_false maxA persps pred ex bal false h
        rw [heq] at hfil hwf
        rw [ihn ex' bal' (by simp at hlt ⊢; omega) hwf]
        exact hfil
      · next ex' bal' heq =>
        have := (rrPass_pred_false maxA persps pred ex bal false h).1
        rw [heq] at this
        exact this
    · rfl

theorem balanceArticleSelection_order_pid_aux
    (articles : List Article) (maxArticles minP : Nat) (topic : Option Topic)
    (hnd : topicIdsNodup topic) (q : Option String) :
    ((balanceArticleSelection articles maxArticles minP topic).filter
        (fun a => articlePid a == q)).Sublist
      (articles.filter (fun a => articlePid a == q)) := by
  unfold balanceArticleSelection
  split
  · simp
  · split
    · exact (List.take_sublist _ _).filter _
    · split
      · exact (List.take_sublist _ _).filter _
      · next t persps hpersp =>
        have hnd' : (persps.map Perspective.id).Nodup := by
          simpa [topicIdsNodup, hpersp] using hnd
        dsimp only
        rw [fillBuckets_characterisation persps articles hnd']
        dsimp only
        set target := maxArticles / persps.length with htarget
        set bucketOf : Perspective → List Article :=
          fun p => articles.filter (fun a => articlePid a == some p.id) with hbucketOf
        set others : List Article := articles.filter
          (fun a => (persps.find? (fun p => articlePid a == some p.id)).isNone) with hothers
        have hbal1 : persps.foldl
            (fun acc p => acc ++ (objGet (persps.map fun p => (p.id, bucketOf p)) p.id).take
              target) []
            = (persps.map (fun p => (bucketOf p).take target)).flatten := by
          rw [List.foldl_ext _ (fun acc p => acc ++ (bucketOf p).take target) []
            (fun acc p hp => by rw [objGet_map_form bucketOf persps hnd' p hp])]
          rw [foldl_append_eq_flatten (fun p => (bucketOf p).take target) persps []]
          rfl
        rw [hbal1]
        set balanced := (persps.map (fun p => (bucketOf p).take target)).flatten
          with hbalanced
        have hex0 : persps.foldl
            (fun e p => objSet e p.id ((objGet (persps.map fun p => (p.id, bucketOf p)) p.id).drop
              target)) []
            = persps.map (fun p => (p.id, (bucketOf p).drop target)) := by
          rw [List.foldl_ext _ (fun e p => objSet e p.id ((bucketOf p).drop target)) []
            (fun acc p hp => by rw [objGet_map_form bucketOf persps hnd' p hp])]
          have := foldl_objSet_map (fun p => (bucketOf p).drop target) persps [] (by simp) hnd'
          simpa using this
        have hwf0 : ExWF (persps.map (fun p => (p.id, (bucketOf p).drop target))) := by
          intro kv hkv a ha
          rw [List.mem_map] at hkv
          obtain ⟨p, hp, rfl⟩ := hkv
          have := (List.mem_filter.mp (List.mem_of_mem_drop ha)).2
          simpa using this
        have hb2 : ∃ X, ((if balanced.length < maxArticles then
              rrLoop maxArticles persps
                (persps.foldl (fun e p => objSet e p.id
                  ((objGet (persps.map fun p => (p.id, bucketOf p)) p.id).drop target)) [])
                balanced
            else balanced).filter (fun a => articlePid a == q)) ++ X
            = balanced.filter (fun a => articlePid a == q)
              ++ exQ (persps.map (fun p => (p.id, (bucketOf p).drop target))) q := by
          split
          · rw [hex0]
            exact rrLoop_filter_invariant maxArticles persps
              (exSize (persps.map (fun p => (p.id, (bucketOf p).drop target))))
              _ balanced (le_refl _) hwf0 q
          · exact ⟨exQ (persps.map (fun p => (p.id, (bucketOf p).drop target))) q, rfl⟩
        set balanced2 := (if balanced.length < maxArticles then
              rrLoop maxArticles persps
                (persps.foldl (fun e p => objSet e p.id
                  ((objGet (persps.map fun p => (p.id, bucketOf p)) p.id).drop target)) [])
                balanced
            else balanced) with hbalanced2
        obtain ⟨X, hX⟩ := hb2
        have hfinal : ∃ m, (if balanced2.length < maxArticles ∧ others ≠ [] then
              fillOthers maxArticles balanced2 others
            else balanced2) = balanced2 ++ others.take m := by
          split
          · exact fillOthers_eq_take maxArticles others balanced2
          · exact ⟨0, by simp⟩
        obtain ⟨m, hm⟩ := hfinal
        rw [hm, List.filter_append]
        by_cases hdecl : ∃ p ∈ persps, q = some p.id
        · obtain ⟨p, hp, rfl⟩ := hdecl
          have hothersq : (others.take m).filter (fun a => articlePid a == some p.id) = [] := by
            rw [List.filter_eq_nil_iff]
            intro a ha
            have hmem := List.mem_filter.mp (List.mem_of_mem_take ha)
            have hno : ∀ x ∈ persps, ¬ articlePid a = some x.id := by
              simpa using hmem.2
            simpa using hno p hp
          rw [hothersq, List.append_nil]
          have hq1 : balanced.filter (fun a => articlePid a == some p.id)
              = (bucketOf p).take target := by
            rw [hbalanced, hbucketOf]
            exact balanced1_filter_declared articles target persps hnd' p hp
          have hq2 : exQ (persps.map (fun r => (r.id, (bucketOf r).drop target))) (some p.id)
              = (bucketOf p).drop target := by
            simp only [exQ]
            exact objGet_map_form (fun r => (bucketOf r).drop target) persps hnd' p hp
          rw [hq1, hq2, List.take_append_drop] at hX
          have hsub : (balanced2.filter (fun a => articlePid a == some p.id)).Sublist
              (bucketOf p) := by
            rw [← hX]
            exact List.sublist_append_left _ _
          exact hsub
        · push_neg at hdecl
          have hq1 : balanced.filter (fun a => articlePid a == q) = [] := by
            rw [hbalanced, hbucketOf]
            exact balanced1_filter_other articles target q persps hdecl
          have hq2 : exQ (persps.map (fun r => (r.id, (bucketOf r).drop target))) q = [] := by
            cases q with
            | none => rfl
            | some k =>
              simp only [exQ]
              refine objGet_map_form_other (fun r => (bucketOf r).drop target) persps k ?_
              intro p hp hc
              exact hdecl p hp (by rw [hc])
          rw [hq1, hq2] at hX
          simp only [List.nil_append] at hX
          have hb2nil : balanced2.filter (fun a => articlePid a == q) = [] :=
            (List.append_eq_nil.mp hX).1
          rw [hb2nil, List.nil_append]
          have hsub : (others.take m).Sublist articles :=
            (List.take_sublist m others).trans (by rw [hothers]; exact List.filter_sublist _)
          exact hsub.filter _

theorem unclassifiedFor_eq (t : Topic) (persps : List Perspective)
    (hpersp : t.perspectives = some persps) :
    unclassifiedFor (some t) = fun a =>
      (persps.find? (fun p => articlePid a == some p.id)).isNone := by
  funext a
  simp only [unclassifiedFor]
  rw [hpersp]

theorem balanceArticleSelection_order_other_aux
    (articles : List Article) (maxArticles minP : Nat) (topic : Option Topic)
    (hnd : topicIdsNodup topic) :
    ((balanceArticleSelection articles maxArticles minP topic).filter
        (unclassifiedFor topic)).Sublist
      (articles.filter (unclassifiedFor topic)) := by
  unfold balanceArticleSelection
  split
  · simp
  · split
    · exact (List.take_sublist _ _).filter _
    · split
      · exact (List.take_sublist _ _).filter _
      · next t persps hpersp =>
        have hnd' : (persps.map Perspective.id).Nodup := by
          simpa [topicIdsNodup, hpersp] using hnd
        rw [unclassifiedFor_eq _ persps hpersp]
        dsimp only
        rw [fillBuckets_characterisation persps articles hnd']
        dsimp only
        set target := maxArticles / persps.length with htarget
        set bucketOf : Perspective → List Article :=
          fun p => articles.filter (fun a => articlePid a == some p.id) with hbucketOf
        set others : List Article := articles.filter
          (fun a => (persps.find? (fun p => articlePid a == some p.id)).isNone) with hothers
        have hbal1 : persps.foldl
            (fun acc p => acc ++ (objGet (persps.map fun p => (p.id, bucketOf p)) p.id).take
              target) []
            = (persps.map (fun p => (bucketOf p).take target)).flatten := by
          rw [List.foldl_ext _ (fun acc p => acc ++ (bucketOf p).take target) []
            (fun acc p hp => by rw [objGet_map_form bucketOf persps hnd' p hp])]
          rw [foldl_append_eq_flatten (fun p => (bucketOf p).take target) persps []]
          rfl
        rw [hbal1]
        set balanced := (persps.map (fun p => (bucketOf p).take target)).flatten
          with hbalanced
        have hex0 : persps.foldl
            (fun e p => objSet e p.id ((objGet (persps.map fun p => (p.id, bucketOf p)) p.id).drop
              target)) []
            = persps.map (fun p => (p.id, (bucketOf p).drop target)) := by
          rw [List.foldl_ext _ (fun e p => objSet e p.id ((bucketOf p).drop target)) []
            (fun acc p hp => by rw [objGet_map_form bucketOf persps hnd' p hp])]
          have := foldl_objSet_map (fun p => (bucketOf p).drop target) persps [] (by simp) hnd'
          simpa using this
        have hpredfalse : ∀ kv ∈ persps.map (fun p => (p.id, (bucketOf p).drop target)),
            ∀ a ∈ kv.2,
              (fun a => (persps.find? (fun p => articlePid a == some p.id)).isNone) a
                = false := by
          intro kv hkv a ha
          rw [List.mem_map] at hkv
          obtain ⟨p, hp, rfl⟩ := hkv
          have hm : (articlePid a == some p.id) = true :=
            (List.mem_filter.mp (List.mem_of_mem_drop ha)).2
          exact find?_isNone_false_of_match persps a p hp hm
        have hbalnil : balanced.filter (fun a =>
            (persps.find? (fun p => articlePid a == some p.id)).isNone) = [] := by
          rw [hbalanced, hbucketOf]
          exact balanced1_filter_unclassified articles target persps persps (fun r hr => hr)
        have hb2 : (if balanced.length < maxArticles then
              rrLoop maxArticles persps
                (persps.foldl (fun e p => objSet e p.id
                  ((objGet (persps.map fun p => (p.id, bucketOf p)) p.id).drop target)) [])
                balanced
            else balanced).filter (fun a =>
              (persps.find? (fun p => articlePid a == some p.id)).isNone) = [] := by
          split
          · rw [hex0]
            rw [rrLoop_pred_false maxArticles persps _
              (exSize (persps.map (fun p => (p.id, (bucketOf p).drop target))))
              _ balanced (le_refl _) hpredfalse]
            exact hbalnil
          · exact hbalnil
        set balanced2 := (if balanced.length < maxArticles then
              rrLoop maxArticles persps
                (persps.foldl (fun e p => objSet e p.id
                  ((objGet (persps.map fun p => (p.id, bucketOf p)) p.id).drop target)) [])
                balanced
            else balanced) with hbalanced2
        have hfinal : ∃ m, (if balanced2.length < maxArticles ∧ others ≠ [] then
              fillOthers maxArticles balanced2 others
            else balanced2) = balanced2 ++ others.take m := by
          split
          · exact fillOthers_eq_take maxArticles others balanced2
          · exact ⟨0, by simp⟩
        obtain ⟨m, hm⟩ := hfinal
        rw [hm, List.filter_append, hb2, List.nil_append]
        have hsub : (others.take m).Sublist articles :=
          (List.take_sublist m others).trans (by rw [hothers]; exact List.filter_sublist _)
        exact hsub.filter _

/-- A concrete article classified to the given perspective id (witness data). -/
def wArt (t pid : String) : Article :=
  { title := t, url := "", publishedAt := "", description := "", sourceName := "",
    metadata := some
      { language := "", region := "", feedType := none, perspective := some pid } }

/-- The "us" perspective (witness data). -/
def wPerspUS : Perspective := { id := "us", name := "US" }

/-- The "venezuelan" perspective (witness data). -/
def wPerspVE : Perspective := { id := "venezuelan", name := "VE" }

/-- A concrete two-perspective topic (witness data). -/
def wTopic : Topic :=
  { query := none, perspectives := some [wPerspUS, wPerspVE], rssFeeds := [] }

/-- C7: for every input, `balanceArticleSelection` preserves input-relative
order within every article class: for every exact perspective id value `q`
(declared, undeclared, or the metadata-less `none` class), the output's
`q`-subsequence is a subsequence of the input's `q`-records, and the whole
"other" bucket — all records classifying to no declared perspective, taken
together as one class — also appears in input order; only the interleaving
across classes changes the global order. -/
theorem balanceArticleSelection_order_within_perspective
    (articles : List Article) (maxArticles minP : Nat) (topic : Option Topic)
    (hnd : topicIdsNodup topic) :
    (∀ q : Option String,
      ((balanceArticleSelection articles maxArticles minP topic).filter
          (fun a => articlePid a == q)).Sublist
        (articles.filter (fun a => articlePid a == q)))
    ∧ ((balanceArticleSelection articles maxArticles minP topic).filter
          (unclassifiedFor topic)).Sublist
        (articles.filter (unclassifiedFor topic)) :=
  ⟨fun q => balanceArticleSelection_order_pid_aux articles maxArticles minP topic hnd q,
   balanceArticleSelection_order_other_aux articles maxArticles minP topic hnd⟩

/-- Concrete articles including an unclassified record (witness data). -/
def wOrderArticles : List Article :=
  [wArt "A1" "us", wArt "X1" "indie", wArt "B1" "venezuelan", wArt "A2" "us"]

theorem balanceArticleSelection_order_witness :
    ((balanceArticleSelection wOrderArticles 2 1 (some wTopic)).filter
        (fun a => articlePid a == some "us")).Sublist
      (wOrderArticles.filter (fun a => articlePid a == some "us"))
    ∧ ((balanceArticleSelection wOrderArticles 2 1 (some wTopic)).filter
        (unclassifiedFor (some wTopic))).Sublist
      (wOrderArticles.filter (unclassifiedFor (some wTopic))) :=
  ⟨(balanceArticleSelection_order_within_perspective wOrderArticles 2 1 (some wTopic)
      (by simp only [topicIdsNodup, wTopic]; decide)).1 (some "us"),
   (balanceArticleSelection_order_within_perspective wOrderArticles 2 1 (some wTopic)
      (by simp only [topicIdsNodup, wTopic]; decide)).2⟩

/-- C6: with declared perspectives `[pA, pB]` (distinct ids), three
articles classifying to `pA`, one to `pB`, and `maxArticles = 4`, the
selection returns all four articles (the two-per-perspective target takes
`[a1, a2]` and `[b1]`, and the round-robin step backfills `a3` from `pA`'s
extras), in the order `[a1, a2, b1, a3]` — a permutation of the input. -/
theorem balanceArticleSelection_backfill (pA pB : Perspective) (a1 a2 a3 b1 : Article)
    (articles : List Article) (t : Topic) (minP : Nat)
    (hne : pA.id ≠ pB.id)
    (hpersp : t.perspectives = some [pA, pB])
    (hfA : articles.filter (fun a => articlePid a == some pA.id) = [a1, a2, a3])
    (hfB : articles.filter (fun a => articlePid a == some pB.id) = [b1])
    (hall : ∀ a ∈ articles, articlePid a = some pA.id ∨ articlePid a = some pB.id) :
    balanceArticleSelection articles 4 minP (some t) = [a1, a2, b1, a3]
    ∧ (balanceArticleSelection articles 4 minP (some t)).Perm articles := by
  have hnd' : (([pA, pB]).map Perspective.id).Nodup := by simp [hne]
  have hnonnil : articles ≠ [] := by
    intro h
    rw [h] at hfA
    simp at hfA
  have hothers : articles.filter
      (fun a => (List.find? (fun p => articlePid a == some p.id) [pA, pB]).isNone) = [] := by
    rw [List.filter_eq_nil_iff]
    intro a ha
    rcases hall a ha with h | h
    · simp [List.find?, h]
    · have hb : (pB.id == pA.id) = false := beq_eq_false_iff_ne.mpr (Ne.symm hne)
      simp [List.find?, h, hb]
  have hmain : balanceArticleSelection articles 4 minP (some t) = [a1, a2, b1, a3] := by
    unfold balanceArticleSelection
    have hempty : ¬ (articles.isEmpty = true) := by
      simpa using hnonnil
    rw [if_neg hempty]
    dsimp only
    rw [hpersp]
    dsimp only
    rw [fillBuckets_characterisation [pA, pB] articles hnd']
    dsimp only
    simp only [List.map_cons, List.map_nil, hfA, hfB, hothers]
    rw [show (4 : Nat) / ([pA, pB] : List Perspective).length = 2 by simp]
    have hbal : ([pA, pB]).foldl
        (fun acc p => acc ++ (objGet [(pA.id, [a1, a2, a3]), (pB.id, [b1])] p.id).take 2) []
        = [a1, a2, b1] := by
      simp [objGet, hne]
    have hex : ([pA, pB]).foldl
        (fun e p => objSet e p.id ((objGet [(pA.id, [a1, a2, a3]), (pB.id, [b1])] p.id).drop 2))
        [] = [(pA.id, [a3]), (pB.id, [])] := by
      simp [objSet, objGet, hne]
    rw [hbal, hex]
    have hc1 : ([a1, a2, b1] : List Article).length < 4 := by simp
    rw [if_pos hc1]
    have hpass : rrPass 4 [pA, pB] [(pA.id, [a3]), (pB.id, [])] [a1, a2, b1] false
        = ([(pA.id, []), (pB.id, [])], [a1, a2, b1, a3], true) := by
      simp [rrPass, objGet, objSet, hne]
    have hloop : rrLoop 4 [pA, pB] [(pA.id, [a3]), (pB.id, [])] [a1, a2, b1]
        = [a1, a2, b1, a3] := by
      rw [rrLoop]
      rw [if_pos hc1]
      split
      · next ex' bal' h =>
        rw [hpass] at h
        injection h with h1 h23
        injection h23 with h2 h3
        subst h1
        subst h2
        rw [rrLoop]
        have hc2 : ¬ (([a1, a2, b1, a3] : List Article).length < 4) := by simp
        rw [if_neg hc2]
      · next ex' bal' h =>
        rw [hpass] at h
        injection h with h1 h23
        injection h23 with h2 h3
        cases h3
    rw [hloop]
    have hc3 : ¬ (([a1, a2, b1, a3] : List Article).length < 4
        ∧ ([] : List Article) ≠ []) := by simp
    rw [if_neg hc3]
  refine ⟨hmain, ?_⟩
  rw [hmain]
  have h1 : articles.filter (fun a => !(articlePid a == some pA.id))
      = articles.filter (fun a => articlePid a == some pB.id) := by
    apply List.filter_congr
    intro a ha
    rcases hall a ha with h | h
    · simp [h, hne]
    · simp [h, Ne.symm hne]
  have h2 := List.filter_append_perm (fun a => articlePid a == some pA.id) articles
  rw [h1, hfA, hfB] at h2
  refine List.Perm.trans ?_ h2
  simp only [List.cons_append, List.nil_append]
  exact List.Perm.cons a1 (List.Perm.cons a2 (List.Perm.swap a3 b1 []))

theorem balanceArticleSelection_backfill_witness :
    balanceArticleSelection
        [wArt "A1" "us", wArt "A2" "us", wArt "A3" "us", wArt "B1" "venezuelan"]
        4 1 (some wTopic)
      = [wArt "A1" "us", wArt "A2" "us", wArt "B1" "venezuelan", wArt "A3" "us"]
    ∧ (balanceArticleSelection
        [wArt "A1" "us", wArt "A2" "us", wArt "A3" "us", wArt "B1" "venezuelan"]
        4 1 (some wTopic)).Perm
        [wArt "A1" "us", wArt "A2" "us", wArt "A3" "us", wArt "B1" "venezuelan"] :=
  balanceArticleSelection_backfill wPerspUS wPerspVE
    (wArt "A1" "us") (wArt "A2" "us") (wArt "A3" "us") (wArt "B1" "venezuelan")
    [wArt "A1" "us", wArt "A2" "us", wArt "A3" "us", wArt "B1" "venezuelan"]
    wTopic 1 (by decide) rfl (by decide) (by decide) (by decide)

theorem uniqueByUrl_at_most_one_linkless_witness :
    (parseFeedItem "es" "VE" none "2026-01-01T00:00:00Z"
        { title := some "Untitled story", link := none, pubDate := none,
          description := none }).url = ""
    ∧ ((uniqueByUrl [cexArticleA, cexArticleB]).filter
        (fun a => a.url = "")).length ≤ 1 :=
  ⟨uniqueByUrl_at_most_one_linkless.1 "es" "VE" none "2026-01-01T00:00:00Z"
      { title := some "Untitled story", link := none, pubDate := none,
        description := none } (by decide),
   uniqueByUrl_at_most_one_linkless.2 [cexArticleA, cexArticleB]⟩
